import Mathlib

/-!
# Verification of the IoU convex-polygon library (`iou.h`)

Shallow embedding of the convex-polygon IoU pipeline declared in `src/iou.h`.
Exact coordinates are modelled by rationals (`ℚ`); the C++ `double` literal
`1e-6` (the global tolerance `_ZERO_`) is modelled by the exact rational
`1/1000000`.  The members of `Vec2` that are defined inline in the header
(`operator==`, `cmul`, `dot`, arithmetic) are translated directly from the
source.  The functions that `iou.h` only declares (`areaEx`, `whichWiseEx`,
`beInSomeWiseEx`, `locationEx`, `interPtsEx`, `findInnerPointsEx`,
`findInterPointsEx`, `areaIntersectionEx`, `areaUnionEx`, `iouEx`,
`Line::isOnLine`, `Line::intersection` and the `Quad` wrappers) are modelled
from the specification, as recorded in each doc comment.

The real-valued members `Vec2::norm`, `Vec2::angle` and `Vec2::theta`,
which use `sqrt`/`acos`, are embedded separately over `ℝ`.
-/

set_option maxRecDepth 8192

namespace IOU

/-- The global numeric tolerance `_ZERO_ = 1e-6` from `iou.h` (line 22),
modelled as the exact rational `1/1000000`. -/
def zeroTol : ℚ := 1 / 1000000

/-- `WiseType` from `iou.h`: winding classification of a vertex list. -/
inductive WiseType where
  | NoneWise
  | ClockWise
  | AntiClockWise
deriving DecidableEq, Repr

/-- `LocPosition` from `iou.h`: location of a point relative to a polygon. -/
inductive LocPosition where
  | OutSide
  | OnLine
  | InSide
deriving DecidableEq, Repr

/-- `Vec2<double>` (= `Point`) from `iou.h`, restricted to its two
coordinates; the `union`-with-array storage trick is irrelevant to the
semantics. -/
structure Vec2 where
  x : ℚ
  y : ℚ
deriving DecidableEq, Repr

namespace Vec2

/-- `Vec2::operator+`. -/
def add (p q : Vec2) : Vec2 := ⟨p.x + q.x, p.y + q.y⟩

/-- `Vec2::operator-`. -/
def sub (p q : Vec2) : Vec2 := ⟨p.x - q.x, p.y - q.y⟩

/-- `Vec2::operator*(T t)`: scaling. -/
def smul (t : ℚ) (p : Vec2) : Vec2 := ⟨p.x * t, p.y * t⟩

/-- `Vec2::dot`. -/
def dot (p q : Vec2) : ℚ := p.x * q.x + p.y * q.y

/-- `Vec2::cmul` (the 2D cross product `x*p.y - y*p.x`). -/
def cmul (p q : Vec2) : ℚ := p.x * q.y - p.y * q.x

/-- `Vec2::operator==` from `iou.h` (lines 64-66): tolerance-based equality,
`abs(x - p.x) <= _ZERO_ && abs(y - p.y) <= _ZERO_`. -/
def ptEq (p q : Vec2) : Bool :=
  |p.x - q.x| ≤ zeroTol && |p.y - q.y| ≤ zeroTol

end Vec2

instance : Add Vec2 := ⟨Vec2.add⟩
instance : Sub Vec2 := ⟨Vec2.sub⟩

/-- A polygon boundary: the `Vertexes` typedef (`std::vector<Point>`). -/
abbrev Vertexes := List Vec2

/-- The cyclic list of directed edges of a vertex list: consecutive pairs,
the last vertex connecting back to the first. -/
def edges (l : Vertexes) : List (Vec2 × Vec2) :=
  match l with
  | [] => []
  | a :: t => List.zip (a :: t) (t ++ [a])

/-- The (open, non-cyclic) shoelace contribution of a vertex path:
sum of `cmul` over consecutive pairs. -/
def pathSum : Vertexes → ℚ
  | a :: b :: t => Vec2.cmul a b + pathSum (b :: t)
  | _ => 0

/-- The full cyclic shoelace sum `Σ (x_i*y_{i+1} - x_{i+1}*y_i)` of a vertex
list, closing the last vertex back to the first. -/
def shoelace (l : Vertexes) : ℚ :=
  pathSum l +
    (match l.getLast?, l.head? with
     | some z, some a => Vec2.cmul z a
     | _, _ => 0)

/-- The signed area: half the cyclic shoelace sum. -/
def signedArea (l : Vertexes) : ℚ := shoelace l / 2

/-- Modelled from the spec: `areaEx` is declared in `iou.h` (line 213) with
no body in the repository; §4.1 defines it as the absolute value of the
signed shoelace sum. -/
def areaEx (l : Vertexes) : ℚ := |signedArea l|

/-- Modelled from the spec: `whichWiseEx` is declared in `iou.h` (line 214)
with no body; §4.1: the sign of the signed shoelace area against the
tolerance decides the winding, `|sign| ≤ tolerance` being degenerate.
Negative signed area (in y-up coordinates) is the clockwise case, matching
the clockwise interior-side convention of §4.2. -/
def whichWiseEx (l : Vertexes) : WiseType :=
  if signedArea l > zeroTol then WiseType.AntiClockWise
  else if signedArea l < -zeroTol then WiseType.ClockWise
  else WiseType.NoneWise

/-- Modelled from the spec: `beInSomeWiseEx` is declared in `iou.h`
(line 215) with no body; §4.1 `normalizeWinding`: reverse the vertex
sequence when the current winding is neither degenerate nor already the
target; degenerate lists are left unchanged. -/
def beInSomeWiseEx (l : Vertexes) (target : WiseType) : Vertexes :=
  if whichWiseEx l ≠ WiseType.NoneWise ∧ whichWiseEx l ≠ target then
    l.reverse
  else l

/-- Modelled from the spec: `locationEx` is declared in `iou.h` (line 216)
with no body; §4.2 `classify`, under the clockwise convention: for each
directed edge, the cross product of the edge vector with the vector from
the edge start to the point; any value strictly above the tolerance means
outside; otherwise a value within the tolerance of zero means on-boundary,
and all values strictly below `-tolerance` mean inside. -/
def locationEx (l : Vertexes) (p : Vec2) : LocPosition :=
  let cs := (edges l).map (fun e => Vec2.cmul (e.2 - e.1) (p - e.1))
  if cs.any (fun c => c > zeroTol) then LocPosition.OutSide
  else if cs.any (fun c => |c| ≤ zeroTol) then LocPosition.OnLine
  else LocPosition.InSide

/-- `Line` from `iou.h`: an ordered pair of points. -/
structure Line where
  p1 : Vec2
  p2 : Vec2
deriving DecidableEq, Repr

/-- Modelled from the spec: `Line::isOnLine` is declared in `iou.h`
(line 153) with no body; §4.3 `isOnSegment`: the point is collinear with
the endpoints (cross product within tolerance) and lies within the
endpoints' bounding range, inclusive. -/
def Line.isOnLine (l : Line) (p : Vec2) : Bool :=
  |Vec2.cmul (l.p2 - l.p1) (p - l.p1)| ≤ zeroTol &&
    min l.p1.x l.p2.x ≤ p.x && p.x ≤ max l.p1.x l.p2.x &&
    min l.p1.y l.p2.y ≤ p.y && p.y ≤ max l.p1.y l.p2.y

/-- The determinant of the 2x2 linear system solved by
`Line::intersection`: the cross product of the two direction vectors. -/
def Line.det (l m : Line) : ℚ :=
  Vec2.cmul (l.p2 - l.p1) (m.p2 - m.p1)

/-- Modelled from the spec: `Line::intersection` is declared in `iou.h`
(line 154) with no body; §4.3 `intersect`: solve the 2x2 parametric system
of the two carrier lines; a determinant within tolerance of zero signals
"no intersection" (`none`); otherwise return the carrier-line intersection
point together with the boolean saying whether it lies within both finite
segments. -/
def Line.intersection (l m : Line) : Option (Vec2 × Bool) :=
  let d1 := l.p2 - l.p1
  let d2 := m.p2 - m.p1
  let dt := Line.det l m
  if |dt| ≤ zeroTol then none
  else
    let t := Vec2.cmul (m.p1 - l.p1) d2 / dt
    let p := l.p1 + Vec2.smul t d1
    some (p, l.isOnLine p && m.isOnLine p)

/-- Modelled from the spec: tolerance deduplication (§4.4/§4.5 step 3).
Scans left to right, keeping a point exactly when no point already kept is
tolerance-equal (`Vec2::operator==`) to it. -/
def dedupPts (l : Vertexes) : Vertexes :=
  l.foldl (fun acc p =>
    if acc.any (fun q => Vec2.ptEq q p) then acc else acc ++ [p]) []

/-- Modelled from the spec: `interPtsEx` is declared in `iou.h` (line 217)
with no body; §4.4 `edgeIntersections`: test the query segment against
every (cyclic) edge of the polygon, collect every intersection point that
lies on both the query segment and the respective edge, suppressing
near-duplicates. -/
def interPtsEx (l : Vertexes) (line : Line) : Vertexes :=
  dedupPts <|
    (edges l).filterMap (fun e =>
      match Line.intersection line (Line.mk e.1 e.2) with
      | some (p, true) => some p
      | _ => none)

/-- Modelled from the spec: `findInnerPointsEx` is declared in `iou.h`
(line 222) with no body; §4.5 step 1 (one direction): the vertices of `C1`
classified inside-or-on-boundary of `C2`. -/
def findInnerPointsEx (C1 C2 : Vertexes) : Vertexes :=
  C1.filter (fun p => locationEx C2 p ≠ LocPosition.OutSide)

/-- Modelled from the spec: `findInterPointsEx` is declared in `iou.h`
(line 221) with no body; §4.5 step 2: the boundary intersections of every
edge of `C1` against `C2`. -/
def findInterPointsEx (C1 C2 : Vertexes) : Vertexes :=
  (edges C1).flatMap (fun e => interPtsEx C2 (Line.mk e.1 e.2))

/-- The candidate point set of §4.5 steps 1-3: inner vertices of each
polygon in the other, plus the edge-crossing points, deduplicated by
coordinate tolerance. -/
def candidatePts (C1 C2 : Vertexes) : Vertexes :=
  dedupPts (findInnerPointsEx C1 C2 ++ findInnerPointsEx C2 C1 ++
    findInterPointsEx C1 C2)

/-- The arithmetic-mean centroid of a point list (§4.5 step 4). -/
def centroidPts (l : Vertexes) : Vec2 :=
  ⟨(l.map Vec2.x).sum / l.length, (l.map Vec2.y).sum / l.length⟩

/-- The angular class of a direction vector, following the partition of
`[0, 2*pi)` computed by `Vec2::theta` (`iou.h` lines 100-106): class 0 is
the positive x-axis (angle 0), class 1 the open upper half-plane (angle in
`(0, pi)`), class 2 the negative x-axis (angle `pi`), class 3 the open
lower half-plane (angle in `(pi, 2*pi)`).  The zero vector (for which
`theta` is undefined) is placed in class 0. -/
def angClass (v : Vec2) : ℕ :=
  if v.y > 0 then 1
  else if v.y < 0 then 3
  else if v.x < 0 then 2
  else 0

/-- Exact comparison of polar angles about the point `c`: the angle of `p`
about `c` is at most the angle of `q` about `c`.  Within one angular class
the cross product decides the order, exactly as the sign of
`sin(theta q - theta p)`. -/
def thetaLe (c p q : Vec2) : Bool :=
  let v := p - c
  let w := q - c
  angClass v < angClass w ||
    (angClass v = angClass w && Vec2.cmul v w ≥ 0)

/-- Insertion of an element into a list, before the first element it
compares `le` to. -/
def insertLe (le : Vec2 → Vec2 → Bool) (a : Vec2) : Vertexes → Vertexes
  | [] => [a]
  | b :: t => if le a b then a :: b :: t else b :: insertLe le a t

/-- Insertion sort with a boolean comparator. -/
def sortLe (le : Vec2 → Vec2 → Bool) : Vertexes → Vertexes
  | [] => []
  | a :: t => insertLe le a (sortLe le t)

/-- Modelled from the spec: §4.5 step 4, sorting the candidate points
ascending by polar angle about their centroid. -/
def sortByTheta (c : Vec2) (l : Vertexes) : Vertexes :=
  sortLe (thetaLe c) l

/-- Modelled from the spec: `areaIntersectionEx` is declared in `iou.h`
(line 223) with no body; §4.5: collect and deduplicate the candidate
points; fewer than 3 candidates means a degenerate intersection of area 0;
otherwise sort the candidates by polar angle about their centroid and take
the shoelace area of the ordered sequence. -/
def areaIntersectionEx (C1 C2 : Vertexes) : ℚ :=
  let cand := candidatePts C1 C2
  if cand.length < 3 then 0
  else areaEx (sortByTheta (centroidPts cand) cand)

/-- Modelled from the spec: `areaUnionEx` is declared in `iou.h`
(line 224) with no body; §4.6: `area(C1) + area(C2) - intersectionArea`. -/
def areaUnionEx (C1 C2 : Vertexes) : ℚ :=
  areaEx C1 + areaEx C2 - areaIntersectionEx C1 C2

/-- Modelled from the spec: `iouEx` is declared in `iou.h` (line 225) with
no body; §4.6: the plain ratio `intersectionArea / unionArea`, returned as
a number (`double` in the header) with no guard on a zero union area; the
zero-denominator case is the caller's to guard.  (Rational division by
zero yields 0 here where IEEE doubles would yield NaN.) -/
def iouEx (C1 C2 : Vertexes) : ℚ :=
  areaIntersectionEx C1 C2 / areaUnionEx C1 C2

/-- `Quad` from `iou.h`: the fixed 4-vertex specialization. -/
structure Quad where
  p1 : Vec2
  p2 : Vec2
  p3 : Vec2
  p4 : Vec2
deriving DecidableEq, Repr

/-- `Quad::getVertList`: the vertex list `[p1, p2, p3, p4]`. -/
def Quad.getVertList (q : Quad) : Vertexes := [q.p1, q.p2, q.p3, q.p4]

/-- Modelled from the spec: `Quad::area` is declared in `iou.h` (line 195)
with no body; §9: the `Quad` operations are the 4-vertex specializations of
the generic vertex-list operations. -/
def Quad.area (q : Quad) : ℚ := areaEx q.getVertList

/-- Modelled from the spec: `areaIntersection` for `Quad` (`iou.h`
line 231), the 4-vertex specialization. -/
def areaIntersection (Q1 Q2 : Quad) : ℚ :=
  areaIntersectionEx Q1.getVertList Q2.getVertList

/-- Modelled from the spec: `areaUnion` for `Quad` (`iou.h` line 232), the
4-vertex specialization. -/
def areaUnion (Q1 Q2 : Quad) : ℚ :=
  areaUnionEx Q1.getVertList Q2.getVertList

/-- Modelled from the spec: `iou` for `Quad` (`iou.h` line 233), the
4-vertex specialization. -/
def iou (Q1 Q2 : Quad) : ℚ :=
  iouEx Q1.getVertList Q2.getVertList

/-- Convexity of a clockwise vertex list (§3 data model): every cross
product of consecutive edge vectors is non-positive. -/
def isConvexCW (l : Vertexes) : Bool :=
  (List.zip (edges l) ((edges l).rotate 1)).all
    (fun ee => Vec2.cmul (ee.1.2 - ee.1.1) (ee.2.2 - ee.2.1) ≤ 0)

/-! ## Component lemmas for the vector operations -/

@[simp]
theorem Vec2.add_x (p q : Vec2) : (p + q).x = p.x + q.x := rfl

@[simp]
theorem Vec2.add_y (p q : Vec2) : (p + q).y = p.y + q.y := rfl

@[simp]
theorem Vec2.sub_x (p q : Vec2) : (p - q).x = p.x - q.x := rfl

@[simp]
theorem Vec2.sub_y (p q : Vec2) : (p - q).y = p.y - q.y := rfl

@[simp]
theorem Vec2.smul_x (t : ℚ) (p : Vec2) : (Vec2.smul t p).x = p.x * t := rfl

@[simp]
theorem Vec2.smul_y (t : ℚ) (p : Vec2) : (Vec2.smul t p).y = p.y * t := rfl

theorem Vec2.cmul_eq (p q : Vec2) : Vec2.cmul p q = p.x * q.y - p.y * q.x := rfl

theorem Vec2.cmul_anticomm (p q : Vec2) : Vec2.cmul p q = -Vec2.cmul q p := by
  simp only [Vec2.cmul_eq]; ring

/-! ## The shoelace sum under reversal -/

/-- The closing term of the cyclic shoelace sum, from the optional last and
first vertices. -/
def closeTerm : Option Vec2 → Option Vec2 → ℚ
  | some z, some a => Vec2.cmul z a
  | _, _ => 0

theorem shoelace_eq (l : Vertexes) :
    shoelace l = pathSum l + closeTerm l.getLast? l.head? := by
  cases h1 : l.getLast? <;> cases h2 : l.head? <;>
    simp [shoelace, closeTerm, h1, h2]

theorem closeTerm_swap (a b : Option Vec2) :
    closeTerm a b = -closeTerm b a := by
  cases a <;> cases b <;> simp only [closeTerm, neg_zero, neg_neg]
  exact Vec2.cmul_anticomm _ _

theorem pathSum_cons_cons (a b : Vec2) (t : Vertexes) :
    pathSum (a :: b :: t) = Vec2.cmul a b + pathSum (b :: t) := rfl

theorem pathSum_cons (a : Vec2) (t : Vertexes) :
    pathSum (a :: t) = closeTerm (some a) t.head? + pathSum t := by
  cases t with
  | nil => simp [pathSum, closeTerm]
  | cons b t2 => simp [pathSum, closeTerm]

theorem pathSum_append_singleton (l : Vertexes) (x : Vec2) :
    pathSum (l ++ [x]) = pathSum l + closeTerm l.getLast? (some x) := by
  induction l with
  | nil => simp [pathSum, closeTerm]
  | cons a t ih =>
    cases t with
    | nil => simp [pathSum, closeTerm]
    | cons b t2 =>
      simp only [List.cons_append] at ih ⊢
      rw [pathSum_cons_cons, ih, pathSum_cons_cons, List.getLast?_cons_cons]
      ring

theorem pathSum_reverse (l : Vertexes) : pathSum l.reverse = -pathSum l := by
  induction l with
  | nil => simp [pathSum]
  | cons a t ih =>
    rw [List.reverse_cons, pathSum_append_singleton, ih,
      List.getLast?_reverse, pathSum_cons, closeTerm_swap t.head? (some a)]
    ring

theorem shoelace_reverse (l : Vertexes) : shoelace l.reverse = -shoelace l := by
  rw [shoelace_eq, shoelace_eq, pathSum_reverse, List.getLast?_reverse,
    List.head?_reverse, closeTerm_swap l.head? l.getLast?]
  ring

theorem signedArea_reverse (l : Vertexes) :
    signedArea l.reverse = -signedArea l := by
  simp [signedArea, shoelace_reverse, neg_div]

theorem areaEx_reverse (l : Vertexes) : areaEx l.reverse = areaEx l := by
  simp [areaEx, signedArea_reverse]

theorem areaEx_nonneg (l : Vertexes) : 0 ≤ areaEx l := abs_nonneg _

/-! ## Winding classification under reversal -/

theorem whichWiseEx_reverse_of_clock (l : Vertexes)
    (h : whichWiseEx l = WiseType.ClockWise) :
    whichWiseEx l.reverse = WiseType.AntiClockWise := by
  unfold whichWiseEx at h ⊢
  rw [signedArea_reverse]
  by_cases h1 : signedArea l > zeroTol
  · rw [if_pos h1] at h
    exact absurd h (by simp)
  · rw [if_neg h1] at h
    by_cases h2 : signedArea l < -zeroTol
    · rw [if_pos (by linarith : -signedArea l > zeroTol)]
    · rw [if_neg h2] at h
      exact absurd h (by simp)

theorem whichWiseEx_reverse_of_anti (l : Vertexes)
    (h : whichWiseEx l = WiseType.AntiClockWise) :
    whichWiseEx l.reverse = WiseType.ClockWise := by
  have hz : (0:ℚ) < zeroTol := by norm_num [zeroTol]
  unfold whichWiseEx at h ⊢
  rw [signedArea_reverse]
  by_cases h1 : signedArea l > zeroTol
  · rw [if_neg (by linarith : ¬ -signedArea l > zeroTol),
      if_pos (by linarith : -signedArea l < -zeroTol)]
  · rw [if_neg h1] at h
    by_cases h2 : signedArea l < -zeroTol
    · rw [if_pos h2] at h
      exact absurd h (by simp)
    · rw [if_neg h2] at h
      exact absurd h (by simp)

/-! ## Insertion sort: permutation, sortedness, uniqueness -/

theorem insertLe_perm (le : Vec2 → Vec2 → Bool) (a : Vec2) :
    ∀ l : Vertexes, List.Perm (insertLe le a l) (a :: l) := by
  intro l
  induction l with
  | nil => simp [insertLe]
  | cons b t ih =>
    by_cases h : le a b
    · simp [insertLe, h]
    · simp only [insertLe, h, if_neg, Bool.false_eq_true, if_false]
      exact (ih.cons b).trans (List.Perm.swap a b t)

theorem sortLe_perm (le : Vec2 → Vec2 → Bool) :
    ∀ l : Vertexes, List.Perm (sortLe le l) l := by
  intro l
  induction l with
  | nil => simp [sortLe]
  | cons a t ih =>
    exact (insertLe_perm le a (sortLe le t)).trans (ih.cons a)

theorem mem_insertLe (le : Vec2 → Vec2 → Bool) (a x : Vec2) (l : Vertexes) :
    x ∈ insertLe le a l ↔ x = a ∨ x ∈ l := by
  rw [(insertLe_perm le a l).mem_iff]
  simp

theorem insertLe_pairwise (le : Vec2 → Vec2 → Bool)
    (htot : ∀ p q, le p q = true ∨ le q p = true)
    (htrans : ∀ p q r, le p q = true → le q r = true → le p r = true)
    (a : Vec2) :
    ∀ l : Vertexes, l.Pairwise (fun p q => le p q = true) →
      (insertLe le a l).Pairwise (fun p q => le p q = true) := by
  intro l
  induction l with
  | nil => intro _; simp [insertLe]
  | cons b t ih =>
    intro hp
    rcases List.pairwise_cons.mp hp with ⟨hb, ht⟩
    by_cases h : le a b
    · simp only [insertLe, h, if_true]
      refine List.pairwise_cons.mpr ⟨?_, hp⟩
      intro x hx
      rcases List.mem_cons.mp hx with hx | hx
      · exact hx ▸ h
      · exact htrans a b x h (hb x hx)
    · simp only [insertLe, h, Bool.false_eq_true, if_false]
      refine List.pairwise_cons.mpr ⟨?_, ih ht⟩
      intro x hx
      rcases (mem_insertLe le a x t).mp hx with hx | hx
      · subst hx
        rcases htot x b with h1 | h1
        · exact absurd h1 (by simpa using h)
        · exact h1
      · exact hb x hx

theorem sortLe_pairwise (le : Vec2 → Vec2 → Bool)
    (htot : ∀ p q, le p q = true ∨ le q p = true)
    (htrans : ∀ p q r, le p q = true → le q r = true → le p r = true) :
    ∀ l : Vertexes,
      (sortLe le l).Pairwise (fun p q => le p q = true) := by
  intro l
  induction l with
  | nil => simp [sortLe]
  | cons a t ih => exact insertLe_pairwise le htot htrans a _ ih

/-- Two sorted lists that are permutations of each other, on elements where
the comparator is antisymmetric, are equal. -/
theorem sorted_perm_eq (le : Vec2 → Vec2 → Bool) :
    ∀ l1 l2 : Vertexes, List.Perm l1 l2 →
      l1.Pairwise (fun p q => le p q = true) →
      l2.Pairwise (fun p q => le p q = true) →
      (∀ p ∈ l1, ∀ q ∈ l1, le p q = true → le q p = true → p = q) →
      l1 = l2 := by
  intro l1
  induction l1 with
  | nil => intro l2 hp _ _ _; simpa using hp.nil_eq.symm
  | cons a t1 ih =>
    intro l2 hp hs1 hs2 hanti
    cases l2 with
    | nil => exact absurd hp.symm (by simp)
    | cons b t2 =>
      have hab : a = b := by
        have hamem : a ∈ b :: t2 := hp.mem_iff.mp (by simp)
        have hbmem : b ∈ a :: t1 := hp.symm.mem_iff.mp (by simp)
        rcases List.mem_cons.mp hamem with h | h
        · exact h
        · rcases List.mem_cons.mp hbmem with h2 | h2
          · exact h2.symm
          · have h1 : le b a = true :=
              (List.pairwise_cons.mp hs2).1 a h
            have h2l : le a b = true :=
              (List.pairwise_cons.mp hs1).1 b h2
            exact hanti a (by simp) b (by simp [h2]) h2l h1
      subst hab
      have htails : List.Perm t1 t2 := hp.cons_inv
      have := ih t2 htails (List.pairwise_cons.mp hs1).2
        (List.pairwise_cons.mp hs2).2
        (fun p hp2 q hq2 => hanti p (by simp [hp2]) q (by simp [hq2]))
      rw [this]

/-! ## The polar-angle comparator is a total preorder -/

theorem angClass_y_sign (v w : Vec2) (h : angClass v = angClass w) :
    (0 < v.y ↔ 0 < w.y) ∧ (v.y < 0 ↔ w.y < 0) := by
  unfold angClass at h
  split_ifs at h <;>
    first
      | exact absurd h (by decide)
      | (constructor <;> constructor <;> intro <;>
          first | assumption | (exfalso; linarith))

theorem cmul_key_identity (v w u : Vec2) :
    w.y * Vec2.cmul v u = u.y * Vec2.cmul v w + v.y * Vec2.cmul w u := by
  simp only [Vec2.cmul]
  ring

theorem cmul_nonneg_trans (v w u : Vec2)
    (hvw : angClass v = angClass w) (hwu : angClass w = angClass u)
    (hX : 0 ≤ Vec2.cmul v w) (hY : 0 ≤ Vec2.cmul w u) :
    0 ≤ Vec2.cmul v u := by
  have key := cmul_key_identity v w u
  rcases lt_trichotomy w.y 0 with hw | hw | hw
  · have hv : v.y < 0 := (angClass_y_sign v w hvw).2.mpr hw
    have hu : u.y < 0 := (angClass_y_sign w u hwu).2.mp hw
    nlinarith
  · have hv : v.y = 0 := by
      have h1 : ¬ (0 < v.y) := fun hc =>
        absurd ((angClass_y_sign v w hvw).1.mp hc) (by rw [hw]; simp)
      have h2 : ¬ (v.y < 0) := fun hc =>
        absurd ((angClass_y_sign v w hvw).2.mp hc) (by rw [hw]; simp)
      linarith
    simp only [Vec2.cmul, hv]
    have hu : u.y = 0 := by
      have h1 : ¬ (0 < u.y) := fun hc =>
        absurd ((angClass_y_sign w u hwu).1.mpr hc) (by rw [hw]; simp)
      have h2 : ¬ (u.y < 0) := fun hc =>
        absurd ((angClass_y_sign w u hwu).2.mpr hc) (by rw [hw]; simp)
      linarith
    simp [hu]
  · have hv : 0 < v.y := (angClass_y_sign v w hvw).1.mpr hw
    have hu : 0 < u.y := (angClass_y_sign w u hwu).1.mp hw
    nlinarith

theorem thetaLe_total (c p q : Vec2) :
    thetaLe c p q = true ∨ thetaLe c q p = true := by
  simp only [thetaLe, Bool.or_eq_true, Bool.and_eq_true, decide_eq_true_eq]
  rcases Nat.lt_trichotomy (angClass (p - c)) (angClass (q - c)) with h | h | h
  · exact Or.inl (Or.inl h)
  · rcases le_total 0 (Vec2.cmul (p - c) (q - c)) with hc | hc
    · exact Or.inl (Or.inr ⟨h, hc⟩)
    · refine Or.inr (Or.inr ⟨h.symm, ?_⟩)
      rw [Vec2.cmul_anticomm]
      linarith
  · exact Or.inr (Or.inl h)

theorem thetaLe_trans (c p q r : Vec2)
    (h1 : thetaLe c p q = true) (h2 : thetaLe c q r = true) :
    thetaLe c p r = true := by
  simp only [thetaLe, Bool.or_eq_true, Bool.and_eq_true, decide_eq_true_eq]
    at h1 h2 ⊢
  rcases h1 with h1 | ⟨h1e, h1c⟩ <;> rcases h2 with h2 | ⟨h2e, h2c⟩
  · exact Or.inl (h1.trans h2)
  · exact Or.inl (h2e ▸ h1)
  · exact Or.inl (h1e ▸ h2)
  · exact Or.inr ⟨h1e.trans h2e, cmul_nonneg_trans _ _ _ h1e h2e h1c h2c⟩

/-! ## Symmetry of the intersection area under well-separated candidates -/

theorem centroidPts_perm (l1 l2 : Vertexes) (h : List.Perm l1 l2) :
    centroidPts l1 = centroidPts l2 := by
  unfold centroidPts
  rw [(h.map Vec2.x).sum_eq, (h.map Vec2.y).sum_eq, h.length_eq]

/-- The pairwise separation condition on a candidate list: no two distinct
candidates tie in polar angle about the centroid `cen`. -/
def SepAngles (cen : Vec2) (l : Vertexes) : Prop :=
  l.Pairwise (fun p q =>
    ¬(thetaLe cen p q = true ∧ thetaLe cen q p = true))

instance (cen : Vec2) (l : Vertexes) : Decidable (SepAngles cen l) := by
  unfold SepAngles
  infer_instance

theorem sortByTheta_eq_of_perm (cen : Vec2) (l1 l2 : Vertexes)
    (hperm : List.Perm l1 l2) (hsep : SepAngles cen l1) :
    sortByTheta cen l1 = sortByTheta cen l2 := by
  have hsym : ∀ p q : Vec2,
      ¬(thetaLe cen p q = true ∧ thetaLe cen q p = true) →
      ¬(thetaLe cen q p = true ∧ thetaLe cen p q = true) :=
    fun p q h hc => h ⟨hc.2, hc.1⟩
  have hs1 : List.Perm (sortByTheta cen l1) l1 := sortLe_perm _ l1
  have hs2 : List.Perm (sortByTheta cen l2) l2 := sortLe_perm _ l2
  have hp12 : List.Perm (sortByTheta cen l1) (sortByTheta cen l2) :=
    (hs1.trans hperm).trans hs2.symm
  have hsepS : SepAngles cen (sortByTheta cen l1) :=
    (hs1.pairwise_iff (fun h => hsym _ _ h)).mpr hsep
  have hanti : ∀ p ∈ sortByTheta cen l1, ∀ q ∈ sortByTheta cen l1,
      thetaLe cen p q = true → thetaLe cen q p = true → p = q := by
    intro p hp q hq h1 h2
    by_contra hne
    have hsym2 : Symmetric (fun p q : Vec2 =>
        ¬(thetaLe cen p q = true ∧ thetaLe cen q p = true)) :=
      fun a b h hc => h ⟨hc.2, hc.1⟩
    exact (hsepS.forall hsym2 hp hq hne) ⟨h1, h2⟩
  exact sorted_perm_eq (thetaLe cen) _ _ hp12
    (sortLe_pairwise _ (thetaLe_total cen) (thetaLe_trans cen) l1)
    (sortLe_pairwise _ (thetaLe_total cen) (thetaLe_trans cen) l2)
    hanti

theorem areaIntersectionEx_symm_of_sep (P Q : Vertexes)
    (hperm : List.Perm (candidatePts P Q) (candidatePts Q P))
    (hsep : SepAngles (centroidPts (candidatePts P Q)) (candidatePts P Q)) :
    areaIntersectionEx P Q = areaIntersectionEx Q P := by
  have hcen : centroidPts (candidatePts Q P) =
      centroidPts (candidatePts P Q) :=
    (centroidPts_perm _ _ hperm).symm
  have hlen : (candidatePts Q P).length = (candidatePts P Q).length :=
    hperm.length_eq.symm
  show (if (candidatePts P Q).length < 3 then (0:ℚ)
      else areaEx (sortByTheta (centroidPts (candidatePts P Q))
        (candidatePts P Q))) =
    (if (candidatePts Q P).length < 3 then (0:ℚ)
      else areaEx (sortByTheta (centroidPts (candidatePts Q P))
        (candidatePts Q P)))
  rw [hcen, hlen]
  by_cases h3 : (candidatePts P Q).length < 3
  · simp [h3]
  · simp only [h3, if_false]
    rw [sortByTheta_eq_of_perm _ _ _ hperm hsep]

/-! ## The solved intersection point lies on both carrier lines -/

theorem intersection_point_on_carriers (l m : Line)
    (h : zeroTol < |Line.det l m|) :
    ∃ p b, Line.intersection l m = some (p, b) ∧
      Vec2.cmul (l.p2 - l.p1) (p - l.p1) = 0 ∧
      Vec2.cmul (m.p2 - m.p1) (p - m.p1) = 0 ∧
      b = (l.isOnLine p && m.isOnLine p) := by
  have hne : Line.det l m ≠ 0 := by
    intro h0
    rw [h0] at h
    norm_num [zeroTol] at h
  have hnle : ¬ |Line.det l m| ≤ zeroTol := not_le.mpr h
  refine ⟨l.p1 + Vec2.smul
      (Vec2.cmul (m.p1 - l.p1) (m.p2 - m.p1) / Line.det l m) (l.p2 - l.p1),
    _, ?_, ?_, ?_, rfl⟩
  · simp only [Line.intersection, hnle, if_false]
  · simp only [Vec2.cmul, Vec2.add_x, Vec2.add_y, Vec2.sub_x, Vec2.sub_y,
      Vec2.smul_x, Vec2.smul_y]
    ring
  · simp only [Line.det, Vec2.cmul, Vec2.add_x, Vec2.add_y, Vec2.sub_x,
      Vec2.sub_y, Vec2.smul_x, Vec2.smul_y] at hne ⊢
    field_simp
    ring

/-! ## The real-valued angle members of `Vec2` -/

/-- `Vec2<double>` viewed with real coordinates, for the members that use
`sqrt`/`acos` (`iou.h` lines 86, 98-106). -/
structure Vec2R where
  x : ℝ
  y : ℝ

/-- `Vec2::norm`: `sqrt(x*x + y*y)` (`iou.h` line 86). -/
noncomputable def Vec2R.norm (v : Vec2R) : ℝ := Real.sqrt (v.x * v.x + v.y * v.y)

/-- `Vec2::dot` over the reals. -/
def Vec2R.dot (v w : Vec2R) : ℝ := v.x * w.x + v.y * w.y

/-- `Vec2::cmul` over the reals. -/
def Vec2R.cmul (v w : Vec2R) : ℝ := v.x * w.y - v.y * w.x

/-- `Vec2::angle` (`iou.h` lines 98-99): `acos(dot(r) / (norm()*r.norm()))`.
The unguarded division is total in the model (division by zero yields 0)
where IEEE doubles would produce NaN. -/
noncomputable def Vec2R.angle (v r : Vec2R) : ℝ :=
  Real.arccos (v.dot r / (v.norm * r.norm))

/-- `Vec2::theta` (`iou.h` lines 100-106): the angle against the positive
x-axis `(1, 0)`, reflected to `3.141592653 * 2 - a` when the cross product
with the axis is positive.  Note the code's constant `3.141592653`, a
truncation of pi. -/
noncomputable def Vec2R.theta (v : Vec2R) : ℝ :=
  let ax : Vec2R := ⟨1, 0⟩
  let a := v.angle ax
  if v.cmul ax > 0 then 3.141592653 * 2 - a else a

/-! ## Concrete inputs for witnesses and counterexamples -/

/-- Clockwise unit square `[(0,0),(0,1),(1,1),(1,0)]`. -/
def sqA : Vertexes := [⟨0, 0⟩, ⟨0, 1⟩, ⟨1, 1⟩, ⟨1, 0⟩]

/-- The unit square shifted by `(1/2, 1/2)` (the spec §8 scenario with
`iou = 1/7`). -/
def sqB : Vertexes := [⟨1/2, 1/2⟩, ⟨1/2, 3/2⟩, ⟨3/2, 3/2⟩, ⟨3/2, 1/2⟩]

/-- A clockwise convex quadrilateral with two vertices `2e-6` apart:
`(0,0)`, `(2e-6,0)`, `(1,-1)`, `(-1,-1)`. -/
def cexP : Vertexes := [⟨0, 0⟩, ⟨2/1000000, 0⟩, ⟨1, -1⟩, ⟨-1, -1⟩]

/-- A clockwise convex triangle whose apex `(1e-6,0)` lies on `cexP`'s short
top edge, within tolerance of both of its endpoints. -/
def cexQ : Vertexes := [⟨1/1000000, 0⟩, ⟨1/2, -4/5⟩, ⟨-1/2, -4/5⟩]

/-- A degenerate (single-point) polygon. -/
def degen : Vertexes := [⟨0, 0⟩]

/-- The segment from `(0,0)` to `(1,1)`. -/
def lineA : Line := ⟨⟨0, 0⟩, ⟨1, 1⟩⟩

/-- The segment from `(0,1)` to `(1,0)`; crosses `lineA` at `(1/2,1/2)`. -/
def lineB : Line := ⟨⟨0, 1⟩, ⟨1, 0⟩⟩

/-! ## The claims -/

/-- Claim C1: for every pair of vertex lists the union area equals
`area(C1) + area(C2)` minus the intersection area, exactly, by
construction; likewise `areaUnion` for the `Quad` specialization. -/
theorem areaUnionEx_inclusion_exclusion :
    (∀ C1 C2 : Vertexes,
      areaUnionEx C1 C2 = areaEx C1 + areaEx C2 - areaIntersectionEx C1 C2) ∧
    (∀ Q1 Q2 : Quad,
      areaUnion Q1 Q2 = Quad.area Q1 + Quad.area Q2 - areaIntersection Q1 Q2) :=
  ⟨fun _ _ => rfl, fun _ _ => rfl⟩

/-- Claim C2 (amended): `iouEx` is symmetric in its two polygons whenever
the deduplicated candidate sets of the two argument orders coincide (as a
permutation) and no two candidates tie in polar angle about the common
centroid.  The unamended claim fails: tolerance-based deduplication is
order-dependent (see the counterexample). -/
theorem iouEx_symm_of_sep (P Q : Vertexes)
    (hperm : List.Perm (candidatePts P Q) (candidatePts Q P))
    (hsep : SepAngles (centroidPts (candidatePts P Q)) (candidatePts P Q)) :
    iouEx P Q = iouEx Q P := by
  have hi := areaIntersectionEx_symm_of_sep P Q hperm hsep
  unfold iouEx areaUnionEx
  rw [hi, add_comm (areaEx P)]

/-- Claim C2 witness: the two overlapping unit squares of spec §8 satisfy
the separation hypotheses, so their `iouEx` is symmetric. -/
theorem iouEx_symm_of_sep_witness : iouEx sqA sqB = iouEx sqB sqA :=
  iouEx_symm_of_sep sqA sqB (by with_unfolding_all decide)
    (by with_unfolding_all decide)

/-- Claim C2 counterexample: two convex clockwise polygons (the claim's
precondition holds) whose `iouEx` differs between the two argument orders.
`cexP` has vertices `(0,0)` and `(2e-6,0)` and `cexQ` has the vertex
`(1e-6,0)` between them; the tolerance-equality clusters are merged
differently depending on which polygon comes first, so the deduplicated
candidate sets, and with them the intersection areas and ratios, differ. -/
theorem iouEx_not_symmetric_cex :
    whichWiseEx cexP = WiseType.ClockWise ∧
    whichWiseEx cexQ = WiseType.ClockWise ∧
    isConvexCW cexP = true ∧ isConvexCW cexQ = true ∧
    iouEx cexP cexQ ≠ iouEx cexQ cexP := by
  with_unfolding_all decide

/-- Claim C3 (amended): `iouEx` is the plain unguarded ratio
`areaIntersectionEx / areaUnionEx` (and likewise `iou` on `Quad`s); no
zero-union check is made inside the operation. -/
theorem iouEx_unguarded_ratio :
    (∀ C1 C2 : Vertexes,
      iouEx C1 C2 = areaIntersectionEx C1 C2 / areaUnionEx C1 C2) ∧
    (∀ Q1 Q2 : Quad,
      iou Q1 Q2 = areaIntersection Q1 Q2 / areaUnion Q1 Q2) :=
  ⟨fun _ _ => rfl, fun _ _ => rfl⟩

/-- Claim C3 counterexample: for two degenerate single-point polygons the
union area is zero, yet `iouEx` performs the division and returns an
ordinary number (the division-by-zero artifact, 0 in the rational model
where IEEE doubles give NaN); the declared `double` return type has no
error channel, so no distinguished error or explicit "undefined" result is
surfaced to the caller. -/
theorem iouEx_zero_union_returns_value :
    areaUnionEx degen degen = 0 ∧ iouEx degen degen = 0 := by
  with_unfolding_all decide

/-- Claim C4: the intersection area is computed from the deduplicated
candidate set (inner vertices of each polygon in the other, plus
edge-crossing points): fewer than 3 candidates yield area 0, otherwise the
shoelace area of the candidates sorted by polar angle about their
centroid. -/
theorem areaIntersectionEx_candidate_pipeline :
    ∀ C1 C2 : Vertexes,
      candidatePts C1 C2 = dedupPts (findInnerPointsEx C1 C2 ++
        findInnerPointsEx C2 C1 ++ findInterPointsEx C1 C2) ∧
      areaIntersectionEx C1 C2 =
        if (candidatePts C1 C2).length < 3 then 0
        else areaEx (sortByTheta (centroidPts (candidatePts C1 C2))
          (candidatePts C1 C2)) :=
  fun _ _ => ⟨rfl, rfl⟩

/-- Claim C5: the polygon area is never negative (0 for degenerate input,
never a failure) and is invariant under reversal of the vertex order; the
`Quad` area is likewise nonnegative. -/
theorem areaEx_nonneg_and_reverse_invariant :
    (∀ C : Vertexes, 0 ≤ areaEx C ∧ areaEx C.reverse = areaEx C) ∧
    (∀ q : Quad, 0 ≤ Quad.area q) :=
  ⟨fun C => ⟨areaEx_nonneg C, areaEx_reverse C⟩, fun _ => abs_nonneg _⟩

/-- Claim C6: normalizing a vertex list to a non-degenerate target winding
yields that winding, unless the list itself is degenerate, in which case it
is left unchanged. -/
theorem beInSomeWiseEx_normalizes :
    ∀ (l : Vertexes) (target : WiseType), target ≠ WiseType.NoneWise →
      (whichWiseEx l = WiseType.NoneWise → beInSomeWiseEx l target = l) ∧
      (whichWiseEx l ≠ WiseType.NoneWise →
        whichWiseEx (beInSomeWiseEx l target) = target) := by
  intro l target ht
  constructor
  · intro h
    rw [beInSomeWiseEx, if_neg (fun hc => hc.1 h)]
  · intro h
    by_cases heq : whichWiseEx l = target
    · rw [beInSomeWiseEx, if_neg (fun hc => hc.2 heq)]
      exact heq
    · rw [beInSomeWiseEx, if_pos ⟨h, heq⟩]
      cases hw : whichWiseEx l with
      | NoneWise => exact absurd hw h
      | ClockWise =>
        cases target with
        | NoneWise => exact absurd rfl ht
        | ClockWise => exact absurd hw heq
        | AntiClockWise => exact whichWiseEx_reverse_of_clock l hw
      | AntiClockWise =>
        cases target with
        | NoneWise => exact absurd rfl ht
        | ClockWise => exact whichWiseEx_reverse_of_anti l hw
        | AntiClockWise => exact absurd hw heq

/-- Claim C6 witness: the clockwise unit square, normalized to
anticlockwise, reports anticlockwise winding. -/
theorem beInSomeWiseEx_normalizes_witness :
    whichWiseEx (beInSomeWiseEx sqA WiseType.AntiClockWise) =
      WiseType.AntiClockWise :=
  (beInSomeWiseEx_normalizes sqA WiseType.AntiClockWise (by decide)).2
    (by with_unfolding_all decide)

/-- Claim C7: segment-segment intersection signals "no intersection" when
the carrier lines are parallel within tolerance (including collinear
overlap); otherwise it returns the intersection point of the two carrier
lines (the point has zero cross product against both directions) together
with a boolean that is true exactly when the point lies within both finite
segments. -/
theorem line_intersection_spec :
    ∀ l m : Line,
      (|Line.det l m| ≤ zeroTol → Line.intersection l m = none) ∧
      (zeroTol < |Line.det l m| →
        ∃ p b, Line.intersection l m = some (p, b) ∧
          Vec2.cmul (l.p2 - l.p1) (p - l.p1) = 0 ∧
          Vec2.cmul (m.p2 - m.p1) (p - m.p1) = 0 ∧
          (b = true ↔ (l.isOnLine p = true ∧ m.isOnLine p = true))) := by
  intro l m
  constructor
  · intro h
    simp [Line.intersection, h]
  · intro h
    obtain ⟨p, b, hsome, h1, h2, hb⟩ := intersection_point_on_carriers l m h
    exact ⟨p, b, hsome, h1, h2, by rw [hb]; simp⟩

/-- Claim C7 witness: the crossing diagonals of the unit square. -/
theorem line_intersection_spec_witness :
    ∃ p b, Line.intersection lineA lineB = some (p, b) ∧
      Vec2.cmul (lineA.p2 - lineA.p1) (p - lineA.p1) = 0 ∧
      Vec2.cmul (lineB.p2 - lineB.p1) (p - lineB.p1) = 0 ∧
      (b = true ↔ (lineA.isOnLine p = true ∧ lineB.isOnLine p = true)) :=
  (line_intersection_spec lineA lineB).2 (by with_unfolding_all decide)

/-- Claim C8: point equality is tolerance-based with the single fixed
constant `_ZERO_ = 1e-6`: it holds exactly when both coordinate differences
are within `1e-6` in absolute value. -/
theorem ptEq_tolerance_iff :
    zeroTol = 1/1000000 ∧
    ∀ p q : Vec2, Vec2.ptEq p q = true ↔
      (|p.x - q.x| ≤ zeroTol ∧ |p.y - q.y| ≤ zeroTol) := by
  refine ⟨rfl, fun p q => ?_⟩
  simp [Vec2.ptEq]

/-- Claim C9: under the precondition that the norm is nonzero, the polar
angle `Vec2::theta` lies in `[0, 2*pi]`; the reflected branch returns
`2*3.141592653 - arccos(...)`, which stays below `2*pi` because the code's
constant is below pi.  (The NaN behaviour of the unguarded `acos`/division
for the zero vector is an IEEE-float artifact outside this exact model.) -/
theorem theta_range_of_norm_ne_zero :
    ∀ v : Vec2R, v.norm ≠ 0 → 0 ≤ v.theta ∧ v.theta ≤ 2 * Real.pi := by
  intro v _
  have ha0 : 0 ≤ v.angle ⟨1, 0⟩ := Real.arccos_nonneg _
  have hapi : v.angle ⟨1, 0⟩ ≤ Real.pi := Real.arccos_le_pi _
  have hcpi : (3.141592653 : ℝ) < Real.pi := by
    calc (3.141592653 : ℝ) < 3.14159265358979323846 := by norm_num
    _ < Real.pi := Real.pi_gt_d20
  have hpi15 : Real.pi < 3.15 := Real.pi_lt_d2
  unfold Vec2R.theta
  by_cases hb : Vec2R.cmul v ⟨1, 0⟩ > 0
  · rw [if_pos hb]
    constructor <;> norm_num <;> linarith
  · rw [if_neg hb]
    constructor
    · exact ha0
    · linarith [Real.pi_nonneg]

/-- Claim C9 witness: the vector `(1, 1)` has nonzero norm, and its theta
lies in `[0, 2*pi]`. -/
theorem theta_range_witness :
    0 ≤ Vec2R.theta ⟨1, 1⟩ ∧ Vec2R.theta ⟨1, 1⟩ ≤ 2 * Real.pi :=
  theta_range_of_norm_ne_zero ⟨1, 1⟩ (by
    unfold Vec2R.norm
    simp only []
    positivity)

/-- Claim C10: tolerance-based point equality is reflexive and symmetric
but not transitive: `(0,0) == (1e-6,0)` and `(1e-6,0) == (2e-6,0)` hold
while `(0,0) == (2e-6,0)` fails; consequently tolerance deduplication is
order-dependent, as the two `dedupPts` evaluations show. -/
theorem ptEq_reflexive_symmetric_not_transitive :
    (∀ p : Vec2, Vec2.ptEq p p = true) ∧
    (∀ p q : Vec2, Vec2.ptEq p q = Vec2.ptEq q p) ∧
    (Vec2.ptEq ⟨0, 0⟩ ⟨1/1000000, 0⟩ = true ∧
     Vec2.ptEq ⟨1/1000000, 0⟩ ⟨2/1000000, 0⟩ = true ∧
     Vec2.ptEq ⟨0, 0⟩ ⟨2/1000000, 0⟩ = false) ∧
    (dedupPts [⟨0, 0⟩, ⟨1/1000000, 0⟩, ⟨2/1000000, 0⟩] =
        [⟨0, 0⟩, ⟨2/1000000, 0⟩] ∧
     dedupPts [⟨1/1000000, 0⟩, ⟨2/1000000, 0⟩, ⟨0, 0⟩] =
        [⟨1/1000000, 0⟩]) := by
  refine ⟨?_, ?_, ?_, ?_⟩
  · intro p
    simp [Vec2.ptEq, zeroTol]
  · intro p q
    unfold Vec2.ptEq
    rw [abs_sub_comm p.x q.x, abs_sub_comm p.y q.y]
  · with_unfolding_all decide
  · constructor <;> with_unfolding_all rfl

end IOU
